import Mathlib

/-
Formal model of the estate-tax effective-rate calculator in
estate_taxes_worldwide_comparison.py.

Modelling conventions:
- Python floats are modelled by rationals; on the inputs considered the
  reference arithmetic is exact (tenths, small products), so the rational
  model agrees with the float program.
- Spreadsheet cells are modelled by `Option ℚ`; `none` stands for a
  missing/NaN cell (pd.isna).
- A Python runtime error (an IndexError from `bands[x+1]` running past the
  end of the list) is modelled by `none` in an `Option` result.
-/

namespace IHT

/-- One tax band: `threshold` is the estate value (as a multiple of average
earnings) at which the band begins, `rate` the marginal rate above it.
Mirrors the `{"threshold": ..., "rate": ...}` dicts built at lines 118-127. -/
structure Band where
  threshold : ℚ
  rate : ℚ
  deriving DecidableEq

/-- The residence-nil-rate-band taper parameters, read from columns 2..4 of a
country row (lines 144-146): the full allowance `band`, the estate value
`taper_start` above which it shrinks, and the shrink rate `taper_rate`. -/
structure Taper where
  band : ℚ
  taper_start : ℚ
  taper_rate : ℚ
  deriving DecidableEq

/-- Line 25: largest charted estate size, as a multiple of average earnings. -/
def max_estate_size : ℚ := 100

/-- Line 54: the grid step. -/
def estate_resolution : ℚ := 1 / 10

/-- Lines 140-149: the effective residence nil-rate band for one estate value.
`none` means column 2 of the row is NaN (no taper configured), giving 0;
otherwise the full `band` applies, tapered by
`max 0 (band - taper_rate * (v - taper_start))` once `v > taper_start`. -/
def allowance : Option Taper → ℚ → ℚ
  | none, _ => 0
  | some t, v =>
      if t.taper_start < v then max 0 (t.band - t.taper_rate * (v - t.taper_start))
      else t.band

/-- Line 152: `modified_estate_value = estate_value - resi_nil_rate_band`.
Not clamped below zero. -/
def modifiedValue (taper : Option Taper) (v : ℚ) : ℚ := v - allowance taper v

/-- Lines 154-163: the band loop.  `acc` is the running `total_tax`, `x` the
loop index.  Each iteration reads `bands[x+1]` (the second list element);
when only one band remains that access is out of range, modelled by `none`
(the Python IndexError).  If `modified_estate_value >= bands[x+1].threshold`
the whole band is consumed and the loop continues, otherwise the partial
band is added and the loop breaks, leaving `x` at the stop index. -/
def bandWalk (mv : ℚ) : List Band → ℚ → Nat → Option (ℚ × Nat)
  | [], acc, x => some (acc, x)
  | [_], _, _ => none
  | b :: b2 :: rest, acc, x =>
      if b2.threshold ≤ mv then
        bandWalk mv (b2 :: rest) (acc + b.rate * (b2.threshold - b.threshold)) (x + 1)
      else
        some (acc + b.rate * (mv - b.threshold), x)

/-- The accumulated `total_tax` of lines 138-163, for a given modified value. -/
def totalTax (bands : List Band) (mv : ℚ) : Option ℚ :=
  (bandWalk mv bands 0 0).map Prod.fst

/-- Line 165: `ETR = total_tax / estate_value`, with the allowance of
lines 140-152 applied first. -/
def ETR (taper : Option Taper) (bands : List Band) (v : ℚ) : Option ℚ :=
  (totalTax bands (modifiedValue taper v)).map (fun t => t / v)

/-- Line 132: the loop bound `int(max_estate_size / estate_resolution) + 1`. -/
def gridCount : Nat := (Int.floor (max_estate_size / estate_resolution)).toNat + 1

/-- Line 132: the estate-value grid `[i * estate_resolution for i in range(...)]`. -/
def grid : List ℚ := (List.range gridCount).map (fun i : Nat => (i : ℚ) * estate_resolution)

/-- Lines 132-171: the per-country loop body over a list of estate values:
skip 0 (lines 134-136), otherwise compute the effective rate and record the
point `(estate_value, ETR)` (lines 165-171; `round(v, 2)` at line 167 is the
identity on the tenths in the grid, so the point keeps `v` itself). -/
def rateCurveAux (taper : Option Taper) (bands : List Band) : List ℚ → Option (List (ℚ × ℚ))
  | [] => some []
  | v :: vs =>
      if v = 0 then rateCurveAux taper bands vs
      else
        match ETR taper bands v, rateCurveAux taper bands vs with
        | some r, some rest => some ((v, r) :: rest)
        | _, _ => none

/-- The full rate curve of one country over the grid of line 132. -/
def rateCurve (taper : Option Taper) (bands : List Band) : Option (List (ℚ × ℚ)) :=
  rateCurveAux taper bands grid

/-- Lines 118-124: the band scan.  `cell` is the country row (column index to
cell), `k` the current band number; scanning keeps going until the threshold
cell `2*k+5` is NaN, reading the rate from `2*k+6`.  A NaN rate cell next to a
present threshold would put a float NaN into the band list, which the rational
model cannot represent, so that case is `none`; `none` is also returned when
the fuel runs out (the Python loop is bounded by the physical row width). -/
def scanBands (cell : Nat → Option ℚ) : Nat → Nat → Option (List Band)
  | 0, _ => none
  | fuel + 1, k =>
      match cell (2 * k + 5) with
      | none => some []
      | some t =>
          match cell (2 * k + 6) with
          | none => none
          | some r => (scanBands cell fuel (k + 1)).map (fun bs => ⟨t, r⟩ :: bs)

/-- Lines 118-127: scan the bands, then append the sentinel
`{"threshold": 10000, "rate": df.iat[country_row, (band-1)*2+6]}`; with `n`
scanned bands the sentinel rate is read back from column `(n-1)*2+6`
(integer arithmetic, which is column 4 when `n = 0`). -/
def loadBands (cell : Nat → Option ℚ) (fuel : Nat) : Option (List Band) :=
  (scanBands cell fuel 0).bind fun bs =>
    match cell ((2 * ((bs.length : Int) - 1) + 6).toNat) with
    | none => none
    | some sr => some (bs ++ [⟨10000, sr⟩])

/-- The loop variable `x` left over after the band walk for estate value `v`. -/
def stopIndexAt (taper : Option Taper) (bands : List Band) (v : ℚ) : Option Nat :=
  (bandWalk (modifiedValue taper v) bands 0 0).map Prod.snd

/-- Line 202: `country_max_statutory_rate.append(bands[x]["rate"])`, where `x`
is the index at which the walk stopped for the last grid value 100
(= 1000 * estate_resolution, the final iteration of the line-132 loop). -/
def reportedStatutoryRate (taper : Option Taper) (bands : List Band) : Option ℚ :=
  (stopIndexAt taper bands 100).bind fun x => (bands.get? x).map Band.rate

/-- Line 174: a country is skipped when
`bands[x]["rate"] == 0 and country_name != "United States"`, with `x` again
the stop index for the last grid value; otherwise it is included. -/
def includedInChart (name : String) (taper : Option Taper) (bands : List Band) : Option Bool :=
  (stopIndexAt taper bands 100).bind fun x =>
    (bands.get? x).map fun b =>
      if b.rate = 0 ∧ name ≠ "United States" then false else true

/-- The largest band rate of a table (0 for an empty table). -/
def maxRate (l : List Band) : ℚ := l.foldr (fun b m => max b.rate m) 0

/-- The output-producing statements of the top-level script, in source order:
`fig.show()` (line 228), `print("All done!")` (line 230), `exit()` (line 231),
then the second chart's regression and `fig2.show()` (lines 257, 274) and the
third chart's regression and `fig3.show()` (lines 314, 332). -/
inductive Effect where
  | showChart1
  | printAllDone
  | exitCall
  | regressChart2
  | showChart2
  | regressChart3
  | showChart3
  deriving DecidableEq

/-- The statement order of the script after the per-country loop. -/
def programEffects : List Effect :=
  [Effect.showChart1, Effect.printAllDone, Effect.exitCall,
   Effect.regressChart2, Effect.showChart2,
   Effect.regressChart3, Effect.showChart3]

/-- What actually runs: `exit()` terminates the process, so only the
statements before the first `exitCall` execute. -/
def executedEffects : List Effect :=
  programEffects.takeWhile (fun e => e ≠ Effect.exitCall)

/-! Helper lemmas about the band walk. -/

/-- The loop state `(total_tax, x)` threads through the walk additively. -/
lemma bandWalk_shift (mv : ℚ) (l : List Band) (acc : ℚ) (x : Nat) :
    bandWalk mv l acc x = (bandWalk mv l 0 0).map (fun p => (acc + p.1, x + p.2)) := by
  induction l generalizing acc x with
  | nil => simp [bandWalk]
  | cons b l ih =>
    cases l with
    | nil => simp [bandWalk]
    | cons b2 rest =>
      by_cases h : b2.threshold ≤ mv
      · rw [bandWalk, if_pos h, bandWalk, if_pos h, ih, ih (0 + b.rate * (b2.threshold - b.threshold)) (0 + 1)]
        cases bandWalk mv (b2 :: rest) 0 0 with
        | none => simp
        | some p =>
            simp
            constructor
            · ring
            · omega
      · rw [bandWalk, if_neg h, bandWalk, if_neg h]
        simp

lemma totalTax_cons (b b2 : Band) (rest : List Band) (mv : ℚ) :
    totalTax (b :: b2 :: rest) mv =
      if b2.threshold ≤ mv then
        (totalTax (b2 :: rest) mv).map (fun s => b.rate * (b2.threshold - b.threshold) + s)
      else some (b.rate * (mv - b.threshold)) := by
  unfold totalTax
  by_cases h : b2.threshold ≤ mv
  · rw [bandWalk, if_pos h, if_pos h, bandWalk_shift]
    cases bandWalk mv (b2 :: rest) 0 0 with
    | none => simp
    | some p => simp
  · rw [bandWalk, if_neg h, if_neg h]
    simp

/-- A successful walk from index 0 stops at an index inside the list. -/
lemma bandWalk_stop_lt (mv : ℚ) (b : Band) (l : List Band) (t : ℚ) (i : Nat)
    (hw : bandWalk mv (b :: l) 0 0 = some (t, i)) : i < (b :: l).length := by
  induction l generalizing b t i with
  | nil => simp [bandWalk] at hw
  | cons b2 rest ih =>
    rw [bandWalk] at hw
    by_cases h : b2.threshold ≤ mv
    · rw [if_pos h, bandWalk_shift] at hw
      obtain ⟨⟨t', i'⟩, hw', he⟩ := Option.map_eq_some'.mp hw
      simp only [Prod.mk.injEq] at he
      have := ih b2 t' i' hw'
      simp only [List.length_cons] at this ⊢
      omega
    · rw [if_neg h] at hw
      simp only [Option.some.injEq, Prod.mk.injEq] at hw
      simp only [List.length_cons]
      omega

/-- When the walk stops strictly before the end of the list, the modified
value is below the next band's threshold. -/
lemma bandWalk_stop_next (mv : ℚ) (b : Band) (l : List Band) (t : ℚ) (i : Nat)
    (hw : bandWalk mv (b :: l) 0 0 = some (t, i)) :
    ∀ bnext, (b :: l).get? (i + 1) = some bnext → mv < bnext.threshold := by
  induction l generalizing b t i with
  | nil => simp [bandWalk] at hw
  | cons b2 rest ih =>
    rw [bandWalk] at hw
    by_cases h : b2.threshold ≤ mv
    · rw [if_pos h, bandWalk_shift] at hw
      obtain ⟨⟨t', i'⟩, hw', he⟩ := Option.map_eq_some'.mp hw
      simp only [Prod.mk.injEq] at he
      intro bnext hbn
      have hi : i = i' + 1 := by omega
      subst hi
      rw [List.get?_cons_succ] at hbn
      exact ih b2 t' i' hw' bnext hbn
    · rw [if_neg h] at hw
      simp only [Option.some.injEq, Prod.mk.injEq] at hw
      intro bnext hbn
      have hi : i = 0 := by omega
      subst hi
      rw [List.get?_cons_succ, List.get?_cons_zero] at hbn
      cases hbn
      exact not_le.mp h

/-- Lower bound: with non-decreasing rates the walk collects at least the
head rate applied to everything above the head threshold. -/
lemma bandWalk_lower (mv : ℚ) (b : Band) (l : List Band) (t : ℚ) (i : Nat)
    (hr : List.Chain' (fun a c => a.rate ≤ c.rate) (b :: l))
    (hw : bandWalk mv (b :: l) 0 0 = some (t, i)) :
    b.rate * (mv - b.threshold) ≤ t := by
  induction l generalizing b t i with
  | nil => simp [bandWalk] at hw
  | cons b2 rest ih =>
    obtain ⟨hbr, hr'⟩ := List.chain'_cons.mp hr
    rw [bandWalk] at hw
    by_cases h : b2.threshold ≤ mv
    · rw [if_pos h, bandWalk_shift] at hw
      obtain ⟨⟨t', i'⟩, hw', he⟩ := Option.map_eq_some'.mp hw
      simp only [Prod.mk.injEq] at he
      have hih := ih b2 t' i' hr' hw'
      have h1 : b.rate * (mv - b2.threshold) ≤ b2.rate * (mv - b2.threshold) :=
        mul_le_mul_of_nonneg_right hbr (by linarith)
      have hexp : b.rate * (mv - b.threshold) =
          b.rate * (b2.threshold - b.threshold) + b.rate * (mv - b2.threshold) := by ring
      rw [hexp, ← he.1]
      linarith
    · rw [if_neg h] at hw
      simp only [Option.some.injEq, Prod.mk.injEq] at hw
      linarith [hw.1]

/-- Upper bound: with sorted thresholds and non-decreasing rates, the
collected tax is at most the stop band's rate applied to everything above
the head threshold, and that stop rate dominates the head rate. -/
lemma bandWalk_upper (mv : ℚ) (b : Band) (l : List Band) (t : ℚ) (i : Nat)
    (hth : List.Chain' (fun a c => a.threshold ≤ c.threshold) (b :: l))
    (hr : List.Chain' (fun a c => a.rate ≤ c.rate) (b :: l))
    (hw : bandWalk mv (b :: l) 0 0 = some (t, i)) :
    ∃ bi, (b :: l).get? i = some bi ∧ b.rate ≤ bi.rate ∧
      t ≤ bi.rate * (mv - b.threshold) := by
  induction l generalizing b t i with
  | nil => simp [bandWalk] at hw
  | cons b2 rest ih =>
    obtain ⟨hbt, hth'⟩ := List.chain'_cons.mp hth
    obtain ⟨hbr, hr'⟩ := List.chain'_cons.mp hr
    rw [bandWalk] at hw
    by_cases h : b2.threshold ≤ mv
    · rw [if_pos h, bandWalk_shift] at hw
      obtain ⟨⟨t', i'⟩, hw', he⟩ := Option.map_eq_some'.mp hw
      simp only [Prod.mk.injEq] at he
      obtain ⟨bi, hgi, hb2bi, hub⟩ := ih b2 t' i' hth' hr' hw'
      refine ⟨bi, ?_, hbr.trans hb2bi, ?_⟩
      · have hi : i = i' + 1 := by omega
        subst hi
        rw [List.get?_cons_succ]
        exact hgi
      · have h2 : b.rate * (b2.threshold - b.threshold) ≤
            bi.rate * (b2.threshold - b.threshold) :=
          mul_le_mul_of_nonneg_right (hbr.trans hb2bi) (by linarith)
        have hexp : bi.rate * (mv - b.threshold) =
            bi.rate * (b2.threshold - b.threshold) + bi.rate * (mv - b2.threshold) := by ring
        rw [← he.1, hexp]
        linarith
    · rw [if_neg h] at hw
      simp only [Option.some.injEq, Prod.mk.injEq] at hw
      obtain ⟨ht, hi⟩ := hw
      refine ⟨b, ?_, le_refl _, ?_⟩
      · rw [← hi]
        exact List.get?_cons_zero
      · linarith

/-- Marginal bound between two values: the tax at the larger value exceeds
the tax at the smaller one by at least the smaller value's stop rate times
the difference. -/
lemma bandWalk_two (v1 v2 : ℚ) (b : Band) (l : List Band) (t1 t2 : ℚ) (i1 i2 : Nat)
    (hr : List.Chain' (fun a c => a.rate ≤ c.rate) (b :: l))
    (h12 : v1 ≤ v2)
    (hw1 : bandWalk v1 (b :: l) 0 0 = some (t1, i1))
    (hw2 : bandWalk v2 (b :: l) 0 0 = some (t2, i2)) :
    ∃ b1, (b :: l).get? i1 = some b1 ∧ t1 + b1.rate * (v2 - v1) ≤ t2 := by
  induction l generalizing b t1 t2 i1 i2 with
  | nil => simp [bandWalk] at hw1
  | cons b2 rest ih =>
    obtain ⟨hbr, hr'⟩ := List.chain'_cons.mp hr
    rw [bandWalk] at hw1 hw2
    by_cases hv2 : b2.threshold ≤ v2
    · rw [if_pos hv2, bandWalk_shift] at hw2
      obtain ⟨⟨t2', i2'⟩, hw2', he2⟩ := Option.map_eq_some'.mp hw2
      simp only [Prod.mk.injEq] at he2
      by_cases hv1 : b2.threshold ≤ v1
      · rw [if_pos hv1, bandWalk_shift] at hw1
        obtain ⟨⟨t1', i1'⟩, hw1', he1⟩ := Option.map_eq_some'.mp hw1
        simp only [Prod.mk.injEq] at he1
        obtain ⟨b1, hg1, hineq⟩ := ih b2 t1' t2' i1' i2' hr' hw1' hw2'
        refine ⟨b1, ?_, ?_⟩
        · have hi : i1 = i1' + 1 := by omega
          subst hi
          rw [List.get?_cons_succ]
          exact hg1
        · rw [← he1.1, ← he2.1]
          linarith
      · rw [if_neg hv1] at hw1
        simp only [Option.some.injEq, Prod.mk.injEq] at hw1
        obtain ⟨ht1, hi1⟩ := hw1
        refine ⟨b, ?_, ?_⟩
        · rw [← hi1]
          exact List.get?_cons_zero
        · have hlow := bandWalk_lower v2 b2 rest t2' i2' hr' hw2'
          have h1 : b.rate * (v2 - b2.threshold) ≤ b2.rate * (v2 - b2.threshold) :=
            mul_le_mul_of_nonneg_right hbr (by linarith)
          have hexp : b.rate * (v1 - b.threshold) + b.rate * (v2 - v1) =
              b.rate * (b2.threshold - b.threshold) + b.rate * (v2 - b2.threshold) := by ring
          rw [← ht1, ← he2.1]
          linarith
    · have hv1 : ¬b2.threshold ≤ v1 := fun hc => hv2 (hc.trans h12)
      rw [if_neg hv1] at hw1
      rw [if_neg hv2] at hw2
      simp only [Option.some.injEq, Prod.mk.injEq] at hw1 hw2
      obtain ⟨ht1, hi1⟩ := hw1
      obtain ⟨ht2, _⟩ := hw2
      refine ⟨b, ?_, ?_⟩
      · rw [← hi1]
        exact List.get?_cons_zero
      · have hexp : b.rate * (v1 - b.threshold) + b.rate * (v2 - v1) =
            b.rate * (v2 - b.threshold) := by ring
        rw [← ht1, ← ht2]
        linarith

/-- The tax is non-negative once the modified value has reached the head
threshold and thresholds are sorted with non-negative rates. -/
lemma bandWalk_nonneg (mv : ℚ) (b : Band) (l : List Band) (t : ℚ) (i : Nat)
    (hth : List.Chain' (fun a c => a.threshold ≤ c.threshold) (b :: l))
    (hrpos : ∀ c ∈ b :: l, 0 ≤ c.rate)
    (hmv : b.threshold ≤ mv)
    (hw : bandWalk mv (b :: l) 0 0 = some (t, i)) : 0 ≤ t := by
  induction l generalizing b t i with
  | nil => simp [bandWalk] at hw
  | cons b2 rest ih =>
    obtain ⟨hbt, hth'⟩ := List.chain'_cons.mp hth
    have hb : 0 ≤ b.rate := hrpos b (List.mem_cons_self _ _)
    rw [bandWalk] at hw
    by_cases h : b2.threshold ≤ mv
    · rw [if_pos h, bandWalk_shift] at hw
      obtain ⟨⟨t', i'⟩, hw', he⟩ := Option.map_eq_some'.mp hw
      simp only [Prod.mk.injEq] at he
      have hih := ih b2 t' i' hth' (fun c hc => hrpos c (List.mem_cons_of_mem _ hc)) h hw'
      have hΔ : 0 ≤ b.rate * (b2.threshold - b.threshold) :=
        mul_nonneg hb (by linarith)
      rw [← he.1]
      linarith
    · rw [if_neg h] at hw
      simp only [Option.some.injEq, Prod.mk.injEq] at hw
      rw [← hw.1]
      have : 0 ≤ b.rate * (mv - b.threshold) := mul_nonneg hb (by linarith)
      linarith

/-- The tax is bounded by any uniform rate bound applied above the head
threshold (no monotonicity of rates needed). -/
lemma bandWalk_le_bound (mv R : ℚ) (b : Band) (l : List Band) (t : ℚ) (i : Nat)
    (hth : List.Chain' (fun a c => a.threshold ≤ c.threshold) (b :: l))
    (hR : ∀ c ∈ b :: l, c.rate ≤ R)
    (hmv : b.threshold ≤ mv)
    (hw : bandWalk mv (b :: l) 0 0 = some (t, i)) :
    t ≤ R * (mv - b.threshold) := by
  induction l generalizing b t i with
  | nil => simp [bandWalk] at hw
  | cons b2 rest ih =>
    obtain ⟨hbt, hth'⟩ := List.chain'_cons.mp hth
    have hbR : b.rate ≤ R := hR b (List.mem_cons_self _ _)
    rw [bandWalk] at hw
    by_cases h : b2.threshold ≤ mv
    · rw [if_pos h, bandWalk_shift] at hw
      obtain ⟨⟨t', i'⟩, hw', he⟩ := Option.map_eq_some'.mp hw
      simp only [Prod.mk.injEq] at he
      have hih := ih b2 t' i' hth' (fun c hc => hR c (List.mem_cons_of_mem _ hc)) h hw'
      have h2 : b.rate * (b2.threshold - b.threshold) ≤ R * (b2.threshold - b.threshold) :=
        mul_le_mul_of_nonneg_right hbR (by linarith)
      have hexp : R * (mv - b.threshold) =
          R * (b2.threshold - b.threshold) + R * (mv - b2.threshold) := by ring
      rw [← he.1, hexp]
      linarith
    · rw [if_neg h] at hw
      simp only [Option.some.injEq, Prod.mk.injEq] at hw
      rw [← hw.1]
      have : b.rate * (mv - b.threshold) ≤ R * (mv - b.threshold) :=
        mul_le_mul_of_nonneg_right hbR (by linarith)
      linarith

/-- Every band's rate is at most `maxRate`. -/
lemma rate_le_maxRate (l : List Band) : ∀ b ∈ l, b.rate ≤ maxRate l := by
  induction l with
  | nil => intro b hb; cases hb
  | cons a l ih =>
    intro b hb
    rw [maxRate, List.foldr_cons]
    rcases List.mem_cons.mp hb with h | h
    · rw [h]; exact le_max_left _ _
    · exact (ih b h).trans (le_max_right _ _)

/-- `maxRate` is non-negative. -/
lemma maxRate_nonneg (l : List Band) : 0 ≤ maxRate l := by
  induction l with
  | nil => exact le_refl 0
  | cons a l ih =>
    rw [maxRate, List.foldr_cons]
    exact ih.trans (le_max_right _ _)

/-- With no taper the modified value is the estate value itself. -/
lemma modifiedValue_none (v : ℚ) : modifiedValue none v = v := by
  simp [modifiedValue, allowance]

/-- The allowance is never negative when any configured taper has a
non-negative band. -/
lemma allowance_nonneg (taper : Option Taper) (v : ℚ)
    (htaper : ∀ t0, taper = some t0 → 0 ≤ t0.band) :
    0 ≤ allowance taper v := by
  cases taper with
  | none => exact le_refl 0
  | some t0 =>
    rw [allowance]
    split
    · exact le_max_left _ _
    · exact htaper t0 rfl

/-- When the modified value stays below the final band's threshold and at
least one band precedes it, the walk breaks before reaching the final band,
so the out-of-range access never happens. -/
lemma bandWalk_complete (mv : ℚ) (bs : Band) (hs : mv < bs.threshold) :
    ∀ l : List Band, l ≠ [] →
      ∃ t i, bandWalk mv (l ++ [bs]) 0 0 = some (t, i) ∧ i + 1 < (l ++ [bs]).length := by
  intro l
  induction l with
  | nil => intro h; exact absurd rfl h
  | cons a l' ih =>
    intro _
    cases l' with
    | nil =>
      refine ⟨0 + a.rate * (mv - a.threshold), 0, ?_, by simp⟩
      simp only [List.cons_append, List.nil_append]
      rw [bandWalk, if_neg (not_le.mpr hs)]
    | cons a2 l'' =>
      by_cases h : a2.threshold ≤ mv
      · obtain ⟨t, i, hw, hlen⟩ := ih (List.cons_ne_nil _ _)
        simp only [List.cons_append] at hw hlen ⊢
        refine ⟨0 + a.rate * (a2.threshold - a.threshold) + t, 0 + 1 + i, ?_, ?_⟩
        · rw [bandWalk, if_pos h, bandWalk_shift, hw]
          simp
        · simp only [List.length_append, List.length_cons] at hlen ⊢
          omega
      · refine ⟨0 + a.rate * (mv - a.threshold), 0, ?_, ?_⟩
        · rw [List.cons_append, List.cons_append, bandWalk, if_neg h]
        · simp only [List.length_append, List.length_cons]
          omega

/-- The grid has 1001 entries: `int(100 / 0.1) + 1`. -/
lemma gridCount_eq : gridCount = 1001 := by
  with_unfolding_all rfl

/-- Every grid value lies between 0 and `max_estate_size`. -/
lemma grid_mem_bounds (v : ℚ) (hv : v ∈ grid) : 0 ≤ v ∧ v ≤ max_estate_size := by
  rw [grid] at hv
  obtain ⟨i, hi, rfl⟩ := List.mem_map.mp hv
  have hi' : i < gridCount := List.mem_range.mp hi
  rw [gridCount_eq] at hi'
  have hle : (i : ℚ) ≤ 1000 := by exact_mod_cast Nat.lt_succ_iff.mp hi'
  have h0 : (0 : ℚ) ≤ (i : ℚ) := Nat.cast_nonneg i
  constructor
  · exact mul_nonneg h0 (by norm_num [estate_resolution])
  · rw [max_estate_size, estate_resolution]
    linarith

set_option maxRecDepth 10000 in
/-- 100 is the final grid value, so the leftover loop variable used at
lines 174 and 202 comes from the walk for estate value 100. -/
lemma grid_getLast : grid.getLast? = some 100 := by
  with_unfolding_all rfl

/-- The grid is strictly increasing. -/
lemma grid_sorted : grid.Pairwise (· < ·) := by
  rw [grid, List.pairwise_map]
  refine (List.pairwise_lt_range gridCount).imp ?_
  intro a b hab
  have hq : (a : ℚ) < (b : ℚ) := by exact_mod_cast hab
  exact mul_lt_mul_of_pos_right hq (by norm_num [estate_resolution])

/-- What the scan guarantees about the raw row: each produced band's
threshold and rate come from the cells of its pair, in row order, and the
scan stopped at the first missing threshold cell. -/
lemma scanBands_spec (cell : Nat → Option ℚ) :
    ∀ (fuel k : Nat) (bs : List Band), scanBands cell fuel k = some bs →
      (∀ i bi, bs.get? i = some bi →
          cell (2 * (k + i) + 5) = some bi.threshold ∧
          cell (2 * (k + i) + 6) = some bi.rate) ∧
      cell (2 * (k + bs.length) + 5) = none := by
  intro fuel
  induction fuel with
  | zero => intro k bs h; simp [scanBands] at h
  | succ fuel ih =>
    intro k bs h
    rw [scanBands] at h
    cases hc : cell (2 * k + 5) with
    | none =>
      rw [hc] at h
      simp only [Option.some.injEq] at h
      subst h
      refine ⟨?_, by simpa using hc⟩
      intro i bi hg
      simp at hg
    | some t =>
      rw [hc] at h
      cases hc2 : cell (2 * k + 6) with
      | none => rw [hc2] at h; simp at h
      | some r =>
        rw [hc2] at h
        obtain ⟨bs', hs', rfl⟩ := Option.map_eq_some'.mp h
        obtain ⟨hcells, hstop⟩ := ih (k + 1) bs' hs'
        constructor
        · intro i bi hg
          cases i with
          | zero =>
            rw [List.get?_cons_zero] at hg
            cases hg
            constructor
            · simpa using hc
            · simpa using hc2
          | succ i' =>
            rw [List.get?_cons_succ] at hg
            have harith : k + (i' + 1) = (k + 1) + i' := by omega
            rw [harith]
            exact hcells i' bi hg
        · have harith : k + (⟨t, r⟩ :: bs' : List Band).length = (k + 1) + bs'.length := by
            simp only [List.length_cons]
            omega
          rw [harith]
          exact hstop

end IHT

namespace IHT

/-- C1: per estate value, the tax accumulation starts from the unclamped
`modified_value = v - allowance` (so band 0 can contribute zero or negative
tax), walks the bands in ascending order, consumes a whole band
`bands[i].rate * (bands[i+1].threshold - bands[i].threshold)` and continues
whenever `modified_value >= bands[i+1].threshold` (so a value exactly at the
next threshold consumes the whole band and moves on), and otherwise adds the
partial amount `bands[i].rate * (modified_value - bands[i].threshold)` and
stops. -/
theorem C1_band_walk_accumulation :
    (∀ (taper : Option Taper) (bands : List Band) (v : ℚ),
        ETR taper bands v = (totalTax bands (v - allowance taper v)).map (fun t => t / v)) ∧
    (∀ (b b2 : Band) (rest : List Band) (mv : ℚ),
        totalTax (b :: b2 :: rest) mv =
          if b2.threshold ≤ mv then
            (totalTax (b2 :: rest) mv).map (fun s => b.rate * (b2.threshold - b.threshold) + s)
          else some (b.rate * (mv - b.threshold))) ∧
    (∀ (b b2 : Band) (rest : List Band),
        totalTax (b :: b2 :: rest) b2.threshold =
          (totalTax (b2 :: rest) b2.threshold).map
            (fun s => b.rate * (b2.threshold - b.threshold) + s)) ∧
    totalTax [⟨0, 2/5⟩, ⟨10000, 2/5⟩] (-1) = some (-2/5) := by
  refine ⟨fun _ _ _ => rfl, totalTax_cons, ?_, ?_⟩
  · intro b b2 rest
    rw [totalTax_cons, if_pos le_rfl]
  · with_unfolding_all rfl

/-- The claim that the allowance of any configured taper is exactly 0 for all
sufficiently large estate values fails on the code: a taper with
`taper_rate = 0` (a non-negative rate, as the data model allows) keeps the
full band forever.  With `{band := 1, taper_start := 0, taper_rate := 0}`
the allowance is 1 at every value, never 0. -/
theorem C2_counterexample :
    ¬(∃ V : ℚ, ∀ v : ℚ, V ≤ v → allowance (some ⟨1, 0, 0⟩) v = 0) ∧
      allowance (some ⟨1, 0, 0⟩) 1000000 = 1 := by
  constructor
  · rintro ⟨V, hV⟩
    have h1 := hV (max V 1) (le_max_left _ _)
    have hpos : (0 : ℚ) < max V 1 := lt_of_lt_of_le one_pos (le_max_right _ _)
    rw [allowance, if_pos hpos] at h1
    norm_num at h1
  · norm_num [allowance]

/-- C2 (amended): with no taper the allowance is 0; with a configured taper
of non-negative band the allowance follows
`max 0 (band - taper_rate * (v - taper_start))` above `taper_start` and is the
full band below, hence is never negative; provided the taper rate is
strictly positive (the original claim fails for a zero taper rate), the
allowance is exactly 0 for all sufficiently large values; and the two
concrete examples `{band:1, taper_start:2, taper_rate:1/2}` at `v = 4` and
`v = 5/2` give 0 and 3/4. -/
theorem C2_allowance_taper (t0 : Taper) (hband : 0 ≤ t0.band) (hrate : 0 < t0.taper_rate) :
    (∀ v : ℚ, allowance none v = 0) ∧
    (∀ v : ℚ, t0.taper_start < v →
        allowance (some t0) v = max 0 (t0.band - t0.taper_rate * (v - t0.taper_start))) ∧
    (∀ v : ℚ, v ≤ t0.taper_start → allowance (some t0) v = t0.band) ∧
    (∀ v : ℚ, 0 ≤ allowance (some t0) v) ∧
    (∀ v : ℚ, t0.taper_start + t0.band / t0.taper_rate + 1 ≤ v → allowance (some t0) v = 0) ∧
    allowance (some ⟨1, 2, 1/2⟩) 4 = 0 ∧
    allowance (some ⟨1, 2, 1/2⟩) (5/2) = 3/4 := by
  refine ⟨fun _ => rfl, ?_, ?_, ?_, ?_, ?_, ?_⟩
  · intro v hv
    rw [allowance, if_pos hv]
  · intro v hv
    rw [allowance, if_neg (not_lt.mpr hv)]
  · intro v
    rw [allowance]
    split
    · exact le_max_left _ _
    · exact hband
  · intro v hv
    have hq : 0 ≤ t0.band / t0.taper_rate := div_nonneg hband hrate.le
    have hlt : t0.taper_start < v := by linarith
    rw [allowance, if_pos hlt]
    have hmul : t0.band + t0.taper_rate ≤ t0.taper_rate * (v - t0.taper_start) := by
      have h1 : t0.band / t0.taper_rate + 1 ≤ v - t0.taper_start := by linarith
      have h2 := mul_le_mul_of_nonneg_left h1 hrate.le
      rw [mul_add, mul_div_cancel₀ _ (ne_of_gt hrate)] at h2
      linarith
    have : t0.band - t0.taper_rate * (v - t0.taper_start) ≤ 0 := by linarith
    exact max_eq_left this
  · with_unfolding_all rfl
  · with_unfolding_all rfl

/-- Witness for the amended C2 statement at the concrete taper
`{band:1, taper_start:2, taper_rate:1/2}`. -/
theorem C2_allowance_taper_witness :
    allowance (some ⟨1, 2, 1/2⟩) 4 = 0 ∧ (0 : ℚ) ≤ allowance (some ⟨1, 2, 1/2⟩) 4 := by
  have h := C2_allowance_taper ⟨1, 2, 1/2⟩ (by norm_num) (by norm_num)
  exact ⟨h.2.2.2.2.2.1, h.2.2.2.1 4⟩

/-- C9: the script never reaches the cross-country comparison.  `exit()` at
line 231 runs right after the first chart is shown, so the comparison
scatter charts and their least-squares regressions (lines 234-332) are dead
code, although the file's own header comment promises two charts. -/
theorem C9_exit_before_comparison :
    Effect.showChart1 ∈ executedEffects ∧
    Effect.regressChart2 ∉ executedEffects ∧
    Effect.showChart2 ∉ executedEffects ∧
    Effect.regressChart3 ∉ executedEffects ∧
    Effect.showChart3 ∉ executedEffects := by
  decide

/-- The claim that the reported maximum statutory rate always equals the
sentinel band's rate fails on the code: with bands
`[{0, 1/10}, {200, 2/5}]` plus sentinel `{10000, 2/5}`, the walk for the
largest grid value 100 stops in band 0 (100 < 200), so line 202 appends
`bands[0].rate = 1/10`, not the sentinel rate 2/5. -/
theorem C5_counterexample :
    reportedStatutoryRate none [⟨0, 1/10⟩, ⟨200, 2/5⟩, ⟨10000, 2/5⟩] = some (1/10) ∧
    ([(⟨0, 1/10⟩ : Band), ⟨200, 2/5⟩, ⟨10000, 2/5⟩].getLast?).map Band.rate = some (2/5) ∧
    (1/10 : ℚ) ≠ 2/5 := by
  refine ⟨?_, ?_, by norm_num⟩
  · with_unfolding_all rfl
  · with_unfolding_all rfl

/-- C5 (amended): the rate appended at line 202 is the rate of the band at
which the band walk stopped for the largest evaluated estate value 100 (the
leftover loop variable `x`), which is characterised by the modified value
lying below the next band's threshold; it equals the sentinel rate only when
the walk happens to stop at the topmost band. -/
theorem C5_reported_rate (taper : Option Taper) (bands : List Band) (t : ℚ) (x : Nat)
    (hw : bandWalk (modifiedValue taper 100) bands 0 0 = some (t, x))
    (hne : bands ≠ []) :
    ∃ bx, bands.get? x = some bx ∧
      reportedStatutoryRate taper bands = some bx.rate ∧
      ∀ bnext, bands.get? (x + 1) = some bnext → modifiedValue taper 100 < bnext.threshold := by
  cases bands with
  | nil => exact absurd rfl hne
  | cons b l =>
    have hlt : x < (b :: l).length := bandWalk_stop_lt _ b l t x hw
    have hget : (b :: l).get? x = some ((b :: l).get ⟨x, hlt⟩) := List.get?_eq_get hlt
    refine ⟨(b :: l).get ⟨x, hlt⟩, hget, ?_, bandWalk_stop_next _ b l t x hw⟩
    rw [reportedStatutoryRate, stopIndexAt, hw]
    simp only [Option.map_some', Option.some_bind]
    rw [hget, Option.map_some']

/-- Witness for the amended C5 statement: for bands
`[{0, 1/10}, {200, 2/5}]` plus sentinel, the walk for value 100 stops at
index 0 and the reported rate is that band's. -/
theorem C5_reported_rate_witness :
    ∃ bx, [(⟨0, 1/10⟩ : Band), ⟨200, 2/5⟩, ⟨10000, 2/5⟩].get? 0 = some bx ∧
      reportedStatutoryRate none [⟨0, 1/10⟩, ⟨200, 2/5⟩, ⟨10000, 2/5⟩] = some bx.rate ∧
      ∀ bnext, [(⟨0, 1/10⟩ : Band), ⟨200, 2/5⟩, ⟨10000, 2/5⟩].get? (0 + 1) = some bnext →
        modifiedValue none 100 < bnext.threshold :=
  C5_reported_rate none [⟨0, 1/10⟩, ⟨200, 2/5⟩, ⟨10000, 2/5⟩] 10 0
    (by with_unfolding_all rfl) (by simp)

/-- The claim that inclusion is decided by the maximum statutory (topmost)
rate fails on the code: a country with bands `[{0, 0}, {200, 2/5}]` plus
sentinel `{10000, 2/5}` has topmost rate 2/5 ≠ 0, yet line 174 tests
`bands[x].rate` for the stop index of value 100, which is band 0 with rate
0, so the country is excluded. -/
theorem C6_counterexample :
    includedInChart "Ruritania" none [⟨0, 0⟩, ⟨200, 2/5⟩, ⟨10000, 2/5⟩] = some false ∧
    ([(⟨0, 0⟩ : Band), ⟨200, 2/5⟩, ⟨10000, 2/5⟩].getLast?).map Band.rate = some (2/5) ∧
    (2/5 : ℚ) ≠ 0 ∧ "Ruritania" ≠ "United States" := by
  refine ⟨?_, ?_, by norm_num, by decide⟩
  · with_unfolding_all rfl
  · with_unfolding_all rfl

/-- C6 (amended): a country is included iff the rate of the band at which
the walk stopped for the largest grid value 100 is nonzero or the name is
"United States"; consequently an all-zero-rate country not named "United
States" is excluded, and an all-zero-rate "United States" is included with a
reported rate of 0. -/
theorem C6_inclusion_rule (name : String) (taper : Option Taper) (bands : List Band)
    (t : ℚ) (x : Nat) (bx : Band)
    (hw : bandWalk (modifiedValue taper 100) bands 0 0 = some (t, x))
    (hbx : bands.get? x = some bx) :
    (includedInChart name taper bands = some true ↔ (bx.rate ≠ 0 ∨ name = "United States")) ∧
    ((∀ b ∈ bands, b.rate = 0) → name ≠ "United States" →
        includedInChart name taper bands = some false) ∧
    ((∀ b ∈ bands, b.rate = 0) →
        includedInChart "United States" taper bands = some true ∧
        reportedStatutoryRate taper bands = some 0) := by
  have hmem : bx ∈ bands := List.get?_mem hbx
  refine ⟨?_, ?_, ?_⟩
  · rw [includedInChart, stopIndexAt, hw]
    simp only [Option.map_some', Option.some_bind, hbx]
    by_cases hp : bx.rate = 0 ∧ name ≠ "United States"
    · rw [if_pos hp]
      simp only [Option.some.injEq, Bool.false_eq_true, false_iff]
      push_neg
      exact hp
    · rw [if_neg hp]
      simp only [Option.some.injEq, true_iff]
      rcases not_and_or.mp hp with h | h
      · exact Or.inl h
      · exact Or.inr (not_not.mp h)
  · intro hall hname
    rw [includedInChart, stopIndexAt, hw]
    simp only [Option.map_some', Option.some_bind, hbx]
    rw [if_pos ⟨hall bx hmem, hname⟩]
  · intro hall
    constructor
    · rw [includedInChart, stopIndexAt, hw]
      simp only [Option.map_some', Option.some_bind, hbx]
      rw [if_neg (by simp)]
    · rw [reportedStatutoryRate, stopIndexAt, hw]
      simp only [Option.map_some', Option.some_bind, hbx, Option.map_some']
      rw [hall bx hmem]

/-- Witness for the amended C6 statement: a single 30% flat band keeps
"France" in the chart. -/
theorem C6_inclusion_rule_witness :
    includedInChart "France" none [⟨0, 3/10⟩, ⟨10000, 3/10⟩] = some true :=
  ((C6_inclusion_rule "France" none [⟨0, 3/10⟩, ⟨10000, 3/10⟩] 30 0 ⟨0, 3/10⟩
      (by with_unfolding_all rfl) (by with_unfolding_all rfl)).1).mpr
    (Or.inl (by norm_num))

/-- C7: for a country with no allowance taper and a valid band table
(strictly increasing non-negative thresholds, non-decreasing non-negative
rates), the effective rate is non-decreasing in the estate value wherever it
is defined. -/
theorem C7_effective_rate_monotone (bands : List Band) (v1 v2 r1 r2 : ℚ)
    (hth : List.Chain' (fun a c => a.threshold < c.threshold) bands)
    (hth0 : ∀ b ∈ bands, 0 ≤ b.threshold)
    (hr : List.Chain' (fun a c => a.rate ≤ c.rate) bands)
    (hrpos : ∀ b ∈ bands, 0 ≤ b.rate)
    (hv1 : 0 < v1) (h12 : v1 ≤ v2)
    (h1 : ETR none bands v1 = some r1) (h2 : ETR none bands v2 = some r2) :
    r1 ≤ r2 := by
  have hv2 : 0 < v2 := hv1.trans_le h12
  cases bands with
  | nil =>
    simp only [ETR, totalTax, modifiedValue_none, bandWalk, Option.map_some',
      Option.some.injEq] at h1 h2
    rw [← h1, ← h2]
    simp
  | cons b l =>
    simp only [ETR, totalTax, modifiedValue_none, Option.map_map, Option.map_eq_some',
      Function.comp] at h1 h2
    obtain ⟨⟨t1, i1⟩, hw1, he1⟩ := h1
    obtain ⟨⟨t2, i2⟩, hw2, he2⟩ := h2
    simp only at he1 he2
    have hthle : List.Chain' (fun a c => a.threshold ≤ c.threshold) (b :: l) :=
      hth.imp (fun a c hac => le_of_lt hac)
    obtain ⟨bi, hgi, hbbi, hup⟩ := bandWalk_upper v1 b l t1 i1 hthle hr hw1
    obtain ⟨b1, hg1, hlow⟩ := bandWalk_two v1 v2 b l t1 t2 i1 i2 hr h12 hw1 hw2
    rw [hgi] at hg1
    cases hg1
    have hbimem : bi ∈ b :: l := List.get?_mem hgi
    have hbirate : 0 ≤ bi.rate := hrpos bi hbimem
    have hbth0 : 0 ≤ b.threshold := hth0 b (List.mem_cons_self _ _)
    have ht1v1 : t1 ≤ bi.rate * v1 := by nlinarith
    rw [← he1, ← he2, div_le_div_iff₀ hv1 hv2]
    nlinarith [mul_le_mul_of_nonneg_right hlow hv1.le,
      mul_le_mul_of_nonneg_right ht1v1 (sub_nonneg.mpr h12)]

/-- Witness for C7: bands `[{0, 1/10}, {1, 1/5}]` plus sentinel, effective
rates at 1/2 and 2 are 1/10 and 3/20. -/
theorem C7_effective_rate_monotone_witness :
    ETR none [⟨0, 1/10⟩, ⟨1, 1/5⟩, ⟨10000, 1/5⟩] (1/2) = some (1/10) ∧
    ETR none [⟨0, 1/10⟩, ⟨1, 1/5⟩, ⟨10000, 1/5⟩] 2 = some (3/20) ∧
    (1/10 : ℚ) ≤ 3/20 := by
  refine ⟨?hc1, ?hc2, ?_⟩
  case hc1 => with_unfolding_all rfl
  case hc2 => with_unfolding_all rfl
  exact C7_effective_rate_monotone [⟨0, 1/10⟩, ⟨1, 1/5⟩, ⟨10000, 1/5⟩] (1/2) 2 (1/10) (3/20)
    (by simp [List.chain'_cons])
    (by simp [Band.threshold])
    (by simp [List.chain'_cons] <;> norm_num)
    (by simp [Band.rate])
    (by norm_num) (by norm_num)
    (by with_unfolding_all rfl) (by with_unfolding_all rfl)

/-- C8: for a valid band table with first threshold 0, strictly increasing
thresholds and all rates in [0, 1], zero allowance and v > 0, the computed
effective rate lies between 0 and the largest band rate. -/
theorem C8_effective_rate_bounds (b0 : Band) (rest : List Band) (v r : ℚ)
    (hth0 : b0.threshold = 0)
    (hth : List.Chain' (fun a c => a.threshold < c.threshold) (b0 :: rest))
    (hrates : ∀ c ∈ b0 :: rest, 0 ≤ c.rate ∧ c.rate ≤ 1)
    (hv : 0 < v)
    (h : ETR none (b0 :: rest) v = some r) :
    0 ≤ r ∧ r ≤ maxRate (b0 :: rest) := by
  simp only [ETR, totalTax, modifiedValue_none, Option.map_map, Option.map_eq_some',
    Function.comp] at h
  obtain ⟨⟨t, i⟩, hw, he⟩ := h
  simp only at he
  have hthle : List.Chain' (fun a c => a.threshold ≤ c.threshold) (b0 :: rest) :=
    hth.imp (fun a c hac => le_of_lt hac)
  have hmv : b0.threshold ≤ v := by rw [hth0]; exact hv.le
  have htn : 0 ≤ t :=
    bandWalk_nonneg v b0 rest t i hthle (fun c hc => (hrates c hc).1) hmv hw
  have hub := bandWalk_le_bound v (maxRate (b0 :: rest)) b0 rest t i hthle
    (fun c hc => rate_le_maxRate _ c hc) hmv hw
  rw [hth0, sub_zero] at hub
  constructor
  · rw [← he]
    exact div_nonneg htn hv.le
  · rw [← he, div_le_iff₀ hv]
    linarith [hub]

/-- Witness for C8: a flat 10% table at v = 5 gives rate 1/10 within
[0, maxRate]. -/
theorem C8_effective_rate_bounds_witness :
    ETR none [⟨0, 1/10⟩, ⟨10000, 1/10⟩] 5 = some (1/10) ∧
    0 ≤ (1/10 : ℚ) ∧ (1/10 : ℚ) ≤ maxRate [⟨0, 1/10⟩, ⟨10000, 1/10⟩] := by
  refine ⟨?hc, ?_⟩
  case hc => with_unfolding_all rfl
  exact C8_effective_rate_bounds ⟨0, 1/10⟩ [⟨10000, 1/10⟩] 5 (1/10)
    rfl
    (by simp [List.chain'_cons] <;> norm_num)
    (by simp [Band.rate] <;> norm_num)
    (by norm_num)
    (by with_unfolding_all rfl)

/-- C3: for a row with at least one scanned (threshold, rate) pair, the
loader produces exactly the scanned pairs in row order from the fixed
column offset (thresholds at `2*i+5`, rates at `2*i+6`), stops at the first
missing threshold cell, and appends the sentinel band with threshold 10000
(exceeding `max_estate_size = 100`) and the last scanned band's rate. -/
theorem C3_band_loader (cell : Nat → Option ℚ) (fuel : Nat) (bs : List Band)
    (hscan : scanBands cell fuel 0 = some bs) (hne : bs ≠ []) :
    (∀ i bi, bs.get? i = some bi →
        cell (2 * i + 5) = some bi.threshold ∧ cell (2 * i + 6) = some bi.rate) ∧
    cell (2 * bs.length + 5) = none ∧
    loadBands cell fuel = some (bs ++ [⟨10000, (bs.getLast hne).rate⟩]) ∧
    max_estate_size < 10000 := by
  obtain ⟨hcells, hstop⟩ := scanBands_spec cell fuel 0 bs hscan
  have hlen : 1 ≤ bs.length := by
    cases bs with
    | nil => exact absurd rfl hne
    | cons a l => simp
  have hlast : bs.get? (bs.length - 1) = some (bs.getLast hne) := by
    rw [List.getLast_eq_getElem, List.get?_eq_getElem?]
    exact List.getElem?_eq_getElem (by omega)
  have hlastcell := (hcells (bs.length - 1) _ hlast).2
  have htoNat : (2 * ((bs.length : Int) - 1) + 6).toNat = 2 * (bs.length - 1) + 6 := by
    omega
  refine ⟨fun i bi hg => by simpa using hcells i bi hg, by simpa using hstop, ?_, ?_⟩
  · rw [loadBands, hscan, Option.some_bind, htoNat]
    have harith : 2 * (0 + (bs.length - 1)) + 6 = 2 * (bs.length - 1) + 6 := by omega
    rw [harith] at hlastcell
    rw [hlastcell]
  · norm_num [max_estate_size]

/-- Witness for C3 at a one-band row: threshold 0 at column 5, rate 1/10 at
column 6, nothing after. -/
theorem C3_band_loader_witness :
    loadBands (fun n => if n = 5 then some 0 else if n = 6 then some (1/10) else none) 3 =
      some ([⟨0, 1/10⟩] ++
        [⟨10000, ([(⟨0, 1/10⟩ : Band)].getLast (by simp)).rate⟩]) ∧
    (fun n => if n = 5 then some (0 : ℚ) else if n = 6 then some (1/10) else none)
      (2 * [(⟨0, 1/10⟩ : Band)].length + 5) = none := by
  have h := C3_band_loader
    (fun n => if n = 5 then some 0 else if n = 6 then some (1/10) else none) 3
    [⟨0, 1/10⟩] (by with_unfolding_all rfl) (by simp)
  exact ⟨h.2.2.1, h.2.1⟩

/-- What the per-value loop guarantees for any list of estate values. -/
lemma rateCurveAux_spec (taper : Option Taper) (bands : List Band) :
    ∀ (vs : List ℚ) (pts : List (ℚ × ℚ)), rateCurveAux taper bands vs = some pts →
      pts.map Prod.fst = vs.filter (fun v => v ≠ 0) ∧
      ∀ p ∈ pts, p.1 ≠ 0 ∧ ETR taper bands p.1 = some p.2 := by
  intro vs
  induction vs with
  | nil =>
    intro pts h
    simp only [rateCurveAux, Option.some.injEq] at h
    subst h
    simp
  | cons v vs ih =>
    intro pts h
    rw [rateCurveAux] at h
    by_cases hv : v = 0
    · rw [if_pos hv] at h
      obtain ⟨hmap, hall⟩ := ih pts h
      refine ⟨?_, hall⟩
      rw [List.filter_cons, if_neg (by simp [hv])]
      exact hmap
    · rw [if_neg hv] at h
      cases he : ETR taper bands v with
      | none => rw [he] at h; simp at h
      | some r =>
        rw [he] at h
        cases hrest : rateCurveAux taper bands vs with
        | none => rw [hrest] at h; simp at h
        | some rest =>
          rw [hrest] at h
          simp only [Option.some.injEq] at h
          subst h
          obtain ⟨hmap, hall⟩ := ih rest hrest
          constructor
          · rw [List.filter_cons, if_pos (by simp [hv])]
            simp [hmap]
          · intro p hp
            rcases List.mem_cons.mp hp with hp | hp
            · subst hp
              exact ⟨hv, he⟩
            · exact hall p hp

/-- C4: whenever the per-country loop completes, it produces exactly one
rate-curve point per grid value except 0 (which is skipped, so the division
never sees a zero denominator), in ascending estate-value order, with each
point's rate equal to `total_tax / v`. -/
theorem C4_rate_curve (taper : Option Taper) (bands : List Band) (pts : List (ℚ × ℚ))
    (h : rateCurve taper bands = some pts) :
    pts.map Prod.fst = grid.filter (fun v => v ≠ 0) ∧
    (pts.map Prod.fst).Pairwise (· < ·) ∧
    (0 : ℚ) ∈ grid ∧
    ∀ p ∈ pts, p.1 ≠ 0 ∧
      ∃ t, totalTax bands (modifiedValue taper p.1) = some t ∧ p.2 = t / p.1 := by
  obtain ⟨hmap, hall⟩ := rateCurveAux_spec taper bands grid pts h
  refine ⟨hmap, ?_, ?_, ?_⟩
  · rw [hmap]
    exact grid_sorted.sublist (List.filter_sublist grid)
  · rw [grid]
    refine List.mem_map.mpr ⟨0, ?_, by norm_num⟩
    rw [List.mem_range, gridCount_eq]
    omega
  · intro p hp
    obtain ⟨hp0, hetr⟩ := hall p hp
    refine ⟨hp0, ?_⟩
    rw [ETR] at hetr
    obtain ⟨t, htt, ht⟩ := Option.map_eq_some'.mp hetr
    exact ⟨t, htt, ht.symm⟩

/-- A zero-rate two-band table yields the all-zero curve on any value list
below the sentinel. -/
lemma rateCurveAux_zero (vs : List ℚ) (hvs : ∀ v ∈ vs, v < 10000) :
    rateCurveAux none [⟨0, 0⟩, ⟨10000, 0⟩] vs =
      some ((vs.filter (fun v => v ≠ 0)).map (fun v => (v, (0 : ℚ)))) := by
  induction vs with
  | nil => simp [rateCurveAux]
  | cons v vs ih =>
    have hv10000 : v < 10000 := hvs v (List.mem_cons_self _ _)
    have ihr := ih (fun w hw => hvs w (List.mem_cons_of_mem _ hw))
    rw [rateCurveAux]
    by_cases hv : v = 0
    · rw [if_pos hv, ihr, List.filter_cons, if_neg (by simp [hv])]
    · rw [if_neg hv]
      have he : ETR none [⟨0, 0⟩, ⟨10000, 0⟩] v = some 0 := by
        rw [ETR, totalTax, modifiedValue_none, bandWalk,
          if_neg (not_le.mpr (by exact_mod_cast hv10000))]
        simp
      rw [he, ihr, List.filter_cons, if_pos (by simp [hv])]
      simp

/-- Witness for C4: the zero-rate table completes over the whole grid and
its points enumerate the nonzero grid values. -/
theorem C4_rate_curve_witness :
    ∃ pts, rateCurve none [⟨0, 0⟩, ⟨10000, 0⟩] = some pts ∧
      pts.map Prod.fst = grid.filter (fun v => v ≠ 0) := by
  have h : rateCurve none [⟨0, 0⟩, ⟨10000, 0⟩] =
      some ((grid.filter (fun v => v ≠ 0)).map (fun v => (v, (0 : ℚ)))) := by
    rw [rateCurve]
    refine rateCurveAux_zero grid ?_
    intro v hv
    have := (grid_mem_bounds v hv).2
    rw [max_estate_size] at this
    linarith
  exact ⟨_, h, (C4_rate_curve none [⟨0, 0⟩, ⟨10000, 0⟩] _ h).1⟩

/-- C10: for a loaded band table (at least one scanned pair plus the
sentinel), a non-negative taper band and any grid estate value, the band
walk always terminates with the partial-band break strictly before the
sentinel's own index: the allowance is non-negative, so the modified value
stays at most `v ≤ 100 < 10000`, the sentinel threshold, and no
out-of-range access of `bands[x+1]` occurs. -/
theorem C10_walk_in_bounds (cell : Nat → Option ℚ) (fuel : Nat) (bs : List Band)
    (taper : Option Taper) (l : List Band) (v : ℚ)
    (hscan : scanBands cell fuel 0 = some bs) (hne : bs ≠ [])
    (hload : loadBands cell fuel = some l)
    (htaper : ∀ t0, taper = some t0 → 0 ≤ t0.band)
    (hv : v ∈ grid) :
    0 ≤ allowance taper v ∧
    modifiedValue taper v ≤ v ∧
    max_estate_size < 10000 ∧
    ∃ t i, bandWalk (modifiedValue taper v) l 0 0 = some (t, i) ∧ i + 1 < l.length := by
  have halw : 0 ≤ allowance taper v := allowance_nonneg taper v htaper
  have hmv : modifiedValue taper v ≤ v := by
    rw [modifiedValue]
    linarith
  have hvle : v ≤ max_estate_size := (grid_mem_bounds v hv).2
  refine ⟨halw, hmv, by norm_num [max_estate_size], ?_⟩
  rw [loadBands, hscan, Option.some_bind] at hload
  cases hc : cell ((2 * ((bs.length : Int) - 1) + 6).toNat) with
  | none => rw [hc] at hload; simp at hload
  | some sr =>
    rw [hc] at hload
    simp only [Option.some.injEq] at hload
    subst hload
    have hs : modifiedValue taper v < (⟨10000, sr⟩ : Band).threshold := by
      show modifiedValue taper v < (10000 : ℚ)
      rw [max_estate_size] at hvle
      linarith
    exact bandWalk_complete (modifiedValue taper v) ⟨10000, sr⟩ hs bs hne

set_option maxRecDepth 10000 in
/-- Witness for C10: the one-band row, a real taper and the grid value 1/10
(whose modified value is negative, still safely inside band 0). -/
theorem C10_walk_in_bounds_witness :
    0 ≤ allowance (some ⟨1, 2, 1/2⟩) (1/10) ∧
    modifiedValue (some ⟨1, 2, 1/2⟩) (1/10) ≤ 1/10 ∧
    max_estate_size < 10000 ∧
    ∃ t i, bandWalk (modifiedValue (some ⟨1, 2, 1/2⟩) (1/10))
        [⟨0, 1/10⟩, ⟨10000, 1/10⟩] 0 0 = some (t, i) ∧
      i + 1 < [(⟨0, 1/10⟩ : Band), ⟨10000, 1/10⟩].length := by
  have h := C10_walk_in_bounds
    (fun n => if n = 5 then some 0 else if n = 6 then some (1/10) else none) 3
    [⟨0, 1/10⟩] (some ⟨1, 2, 1/2⟩) [⟨0, 1/10⟩, ⟨10000, 1/10⟩] (1/10)
    (by with_unfolding_all rfl) (by simp)
    (by with_unfolding_all rfl)
    (by intro t0 ht0; cases ht0; norm_num)
    (by with_unfolding_all decide)
  exact h

end IHT
